import Mathlib

/-!
Verification of the `shortestpath` library.

A shallow embedding of the Rust crate `shortestpath` (file `src/lib.rs`):
a weighted directed graph with string node keys, a label-based Dijkstra
`shortest_path` and string rendering of the resulting path.

Modelling choices:
* The Rust `HashMap<GraphIndex, Node>` is modelled as an insertion-ordered
  association list `List (String × Node)`; the Rust iteration order over the
  map (which is unspecified) is modelled as insertion order.
* Rust `i32` values are modelled as `Int` (no arithmetic in the program can
  overflow a mathematical integer in the situations the claims are about).
* Panics (`Option::unwrap` on `None`) and non-termination of the
  reconstruction loop are modelled by `shortest_path` returning `none`.
  Both loops are written with explicit fuel; the settle loop marks one
  previously not-done node done in each iteration and the reconstruction
  loop revisits a node only if it loops forever, so fuel `length + 1` makes
  the fuelled functions agree with the Rust loops exactly.
-/

namespace Shortestpath

/-- `Edge` from `src/lib.rs`: destination key `next`, label `name`, weight `cost`. -/
structure Edge where
  next : String
  name : String
  cost : Int
deriving DecidableEq, Repr

/-- `Node` from `src/lib.rs`. -/
structure Node where
  name : String
  done : Bool
  edges : List Edge
  costed : Int
  prev : Option String
  passage : Option Edge
deriving DecidableEq, Repr

/-- `Graph` from `src/lib.rs`; the `HashMap` is an insertion-ordered association list. -/
structure Graph where
  nodes : List (String × Node)
deriving DecidableEq, Repr

/-- `new_graph` from `src/lib.rs`. -/
def new_graph : Graph := ⟨[]⟩

/-- First-match lookup in an association list (Rust `HashMap::get`). -/
def lookupL (l : List (String × Node)) (k : String) : Option Node :=
  match l with
  | [] => none
  | p :: t => if p.1 = k then some p.2 else lookupL t k

/-- Update the entry with key `k` in place (Rust `HashMap::get_mut`); no-op if absent. -/
def modifyL (l : List (String × Node)) (k : String) (f : Node → Node) : List (String × Node) :=
  match l with
  | [] => []
  | p :: t => (if p.1 = k then (p.1, f p.2) else p) :: modifyL t k f

def Graph.lookupNode (g : Graph) (k : String) : Option Node :=
  lookupL g.nodes k

def Graph.containsKey (g : Graph) (k : String) : Bool :=
  (g.lookupNode k).isSome

def Graph.modifyNode (g : Graph) (k : String) (f : Node → Node) : Graph :=
  ⟨modifyL g.nodes k f⟩

/-- Rust `HashMap::entry(k).or_insert(d)`: insert `d` under `k` only if `k` is absent. -/
def Graph.entryOrInsert (g : Graph) (k : String) (d : Node) : Graph :=
  if g.containsKey k = true then g else ⟨g.nodes ++ [(k, d)]⟩

/-- The default node inserted for a destination by `Graph::add` (lines 46-53):
note the placeholder `prev = some src` even though the node was never visited. -/
def dstDefault (src dst : String) : Node :=
  { name := dst, done := false, edges := [], costed := -1, prev := some src, passage := none }

/-- The default node inserted for a source by `Graph::add` (lines 55-62). -/
def srcDefault (src : String) : Node :=
  { name := src, done := false, edges := [], costed := -1, prev := none, passage := none }

/-- `Graph::add` from `src/lib.rs`: ensure the `dst` node exists (with placeholder
`prev = some src`), ensure the `src` node exists (with `prev = none`), then append
the new edge to `src`'s edge list. -/
def Graph.add (g : Graph) (src dst : String) (cost : Int) (edge_name : String) : Graph :=
  let g1 := g.entryOrInsert dst (dstDefault src dst)
  let g2 := g1.entryOrInsert src (srcDefault src)
  g2.modifyNode src (fun n => { n with edges := n.edges ++ [⟨dst, edge_name, cost⟩] })

/-- `Graph::node_prev` from `src/lib.rs`. -/
def Graph.node_prev (g : Graph) (k : String) : Option String :=
  match g.lookupNode k with
  | some n => n.prev
  | none => none

/-- `Graph::node_costed` from `src/lib.rs` (`-1` for a missing node). -/
def Graph.node_costed (g : Graph) (k : String) : Int :=
  match g.lookupNode k with
  | some n => n.costed
  | none => -1

/-- `Graph::node_edges` from `src/lib.rs` (the Rust code clones the list). -/
def Graph.node_edges (g : Graph) (k : String) : List Edge :=
  match g.lookupNode k with
  | some n => n.edges
  | none => []

/-- `Graph::is_done_node` from `src/lib.rs`. -/
def Graph.is_done_node (g : Graph) (k : String) : Bool :=
  match g.lookupNode k with
  | some n => n.done
  | none => false

/-- `Graph::update_node_edge` from `src/lib.rs`. -/
def Graph.update_node_edge (g : Graph) (next_node_name : String) (cost : Int)
    (done_node_name : String) (passed_edge : Edge) : Graph :=
  g.modifyNode next_node_name
    (fun n => { n with costed := cost, prev := some done_node_name, passage := some passed_edge })

/-- `Graph::update_node_done` from `src/lib.rs`. -/
def Graph.update_node_done (g : Graph) (k : String) (d : Bool) : Graph :=
  g.modifyNode k (fun n => { n with done := d })

/-- The candidate-selection `for` loop inside `Graph::shortest_path` (lines 139-149):
skip nodes that are done or have `costed < 0`; otherwise take the node if no candidate
is held yet, or if its `costed` beats the held candidate's. -/
def selectAux : Graph → List (String × Node) → Option String → Option String
  | _, [], acc => acc
  | g, p :: t, none =>
    if p.2.done = true ∨ p.2.costed < 0 then selectAux g t none
    else selectAux g t (some p.1)
  | g, p :: t, some cur =>
    if p.2.done = true ∨ p.2.costed < 0 then selectAux g t (some cur)
    else if p.2.costed < g.node_costed cur then selectAux g t (some p.1)
    else selectAux g t (some cur)

def selectMin (g : Graph) : Option String :=
  selectAux g g.nodes none

/-- The body of the edge `for` loop inside `Graph::shortest_path` (lines 157-170):
skip a done destination; otherwise relax it when it is unreached (`costed = -1`)
or the new cost is strictly smaller. -/
def Graph.relaxEdge (g : Graph) (done_node_name : String) (e : Edge) : Graph :=
  if g.is_done_node e.next = true then g
  else if g.node_costed e.next = -1 ∨
      g.node_costed done_node_name + e.cost < g.node_costed e.next then
    g.update_node_edge e.next (g.node_costed done_node_name + e.cost) done_node_name e
  else g

/-- The whole edge `for` loop: the Rust code iterates over a clone of the settled
node's edge list taken before the first relaxation. -/
def Graph.relaxEdges (g : Graph) (done_node_name : String) (es : List Edge) : Graph :=
  es.foldl (fun h e => h.relaxEdge done_node_name e) g

/-- The outer `loop` of `Graph::shortest_path` (lines 136-177), with fuel:
select the unfinished reached node of minimum cost, relax its edges, mark it done,
and stop when nothing is selectable or the settled node is the goal. -/
def settleLoop : Nat → Graph → String → Graph
  | 0, g, _ => g
  | Nat.succ fuel, g, goal =>
    match selectMin g with
    | none => g
    | some done_node_name =>
      let g1 := g.relaxEdges done_node_name (g.node_edges done_node_name)
      let g2 := g1.update_node_done done_node_name true
      if done_node_name = goal then g2 else settleLoop fuel g2 goal

/-- `WayKind` from `src/lib.rs`. -/
inductive WayKind where
  | Node : String → WayKind
  | Edge : String → Int → WayKind
  | None : WayKind
deriving DecidableEq, Repr

/-- One visit of the reconstruction loop pushes the node marker and, if a passage
edge is recorded, the edge marker (lines 183-187). -/
def pathSeg (node : Node) : List WayKind :=
  match node.passage with
  | some passed_edge => [WayKind.Node node.name, WayKind.Edge passed_edge.name passed_edge.cost]
  | none => [WayKind.Node node.name]

/-- The path-reconstruction `loop` of `Graph::shortest_path` (lines 179-196), with
fuel, producing the passage buffer in push order (goal first).  `none` models the
panic of `self.node_prev(..).unwrap()` on a node without predecessor (and fuel
exhaustion, which in the Rust code is an infinite loop). -/
def buildPath : Nat → Graph → String → String → Option (List WayKind)
  | 0, _, _, _ => none
  | Nat.succ fuel, g, cur, start =>
    match g.lookupNode cur with
    | none => some []
    | some node =>
      if node.name = start then some (pathSeg node)
      else
        match node.prev with
        | none => none
        | some p => (buildPath fuel g p start).map (fun rest => pathSeg node ++ rest)

/-- `ShortestPath` from `src/lib.rs`. -/
structure ShortestPath where
  passages : List WayKind
  total_cost : Int
deriving DecidableEq, Repr

/-- Lines 179-199 of `Graph::shortest_path`: run the reconstruction loop, reverse the
buffer, and read the final cost from the goal node (`self.nodes.get(goal).unwrap()`,
whose panic on a missing goal key is modelled by `none`). -/
def spFinish (g1 : Graph) (start goal : String) : Option (ShortestPath × Graph) :=
  match buildPath (g1.nodes.length + 1) g1 goal start with
  | none => none
  | some passages =>
    match g1.lookupNode goal with
    | none => none
    | some goal_node => some (⟨passages.reverse, goal_node.costed⟩, g1)

/-- `Graph::shortest_path` from `src/lib.rs`.  Returns the result together with the
mutated graph; `none` models a panic (either `unwrap` of a missing predecessor during
reconstruction, or `self.nodes.get(goal).unwrap()` on a goal that is not a key). -/
def Graph.shortest_path (g : Graph) (start goal : String) : Option (ShortestPath × Graph) :=
  if g.containsKey start = true then
    let g0 := g.modifyNode start (fun n => { n with costed := 0 })
    let g1 := settleLoop (g0.nodes.length + 1) g0 goal
    spFinish g1 start goal
  else some (⟨[], -1⟩, g)

/-- `ShortestPath::get_node_path_string` from `src/lib.rs`. -/
def ShortestPath.get_node_path_string (sp : ShortestPath) (connector : String) : String :=
  let stock := sp.passages.foldl
    (fun acc s =>
      match s with
      | WayKind.Node node_name => acc ++ [node_name]
      | _ => acc) []
  String.intercalate connector stock

/-- `ShortestPath::get_node_edge_path_string` from `src/lib.rs`: for each element,
first push `((edge_name))` if it is an edge, then push the name if it is a node. -/
def ShortestPath.get_node_edge_path_string (sp : ShortestPath) (connector : String) : String :=
  let stock := sp.passages.foldl
    (fun acc s =>
      let acc1 :=
        match s with
        | WayKind.Edge edge_name _ => acc ++ ["((" ++ edge_name ++ "))"]
        | _ => acc
      match s with
      | WayKind.Node node_name => acc1 ++ [node_name]
      | _ => acc1) []
  String.intercalate connector stock

/-- `ShortestPath::cost` from `src/lib.rs`. -/
def ShortestPath.cost (sp : ShortestPath) : Int :=
  sp.total_cost

/-- The example graph of the crate documentation and of the test `new_graph_success`. -/
def exampleGraph : Graph :=
  (((((((((new_graph.add "s" "a" 2 "edge1").add "s" "b" 5 "edge2").add
    "a" "b" 2 "edge3").add "a" "c" 5 "edge4").add
    "b" "c" 4 "edge5").add "b" "d" 2 "edge6").add
    "c" "z" 7 "edge7").add "d" "c" 5 "edge8").add "d" "z" 2 "edge9")

/-! ## Association-list lemmas -/

theorem lookupL_modifyL_self (l : List (String × Node)) (k : String) (f : Node → Node) :
    lookupL (modifyL l k f) k = (lookupL l k).map f := by
  induction l with
  | nil => rfl
  | cons p t ih =>
    by_cases h : p.1 = k <;> simp [modifyL, lookupL, h, ih]

theorem lookupL_modifyL_ne (l : List (String × Node)) (k k' : String) (f : Node → Node)
    (h : k' ≠ k) : lookupL (modifyL l k f) k' = lookupL l k' := by
  have hkk : ¬(k = k') := fun hc => h hc.symm
  induction l with
  | nil => rfl
  | cons p t ih =>
    by_cases hp : p.1 = k
    · simp [modifyL, lookupL, hp, hkk, ih]
    · simp only [modifyL, if_neg hp, lookupL, ih]

theorem lookupL_modifyL_eq_none (l : List (String × Node)) (k k' : String) (f : Node → Node) :
    lookupL (modifyL l k f) k' = none ↔ lookupL l k' = none := by
  by_cases h : k' = k
  · subst h; rw [lookupL_modifyL_self]; exact Option.map_eq_none'
  · rw [lookupL_modifyL_ne l k k' f h]

theorem mem_modifyL (l : List (String × Node)) (k : String) (f : Node → Node)
    (p : String × Node) (hp : p ∈ modifyL l k f) :
    ∃ q ∈ l, p = if q.1 = k then (q.1, f q.2) else q := by
  induction l with
  | nil => cases hp
  | cons q t ih =>
    rw [modifyL] at hp
    rcases List.mem_cons.1 hp with h | h
    · exact ⟨q, List.mem_cons_self q t, h⟩
    · obtain ⟨q', hq', hval⟩ := ih h
      exact ⟨q', List.mem_cons_of_mem q hq', hval⟩

theorem map_fst_modifyL (l : List (String × Node)) (k : String) (f : Node → Node) :
    (modifyL l k f).map Prod.fst = l.map Prod.fst := by
  induction l with
  | nil => rfl
  | cons p t ih =>
    by_cases h : p.1 = k <;> simp [modifyL, h, ih]

theorem lookupL_mem (l : List (String × Node)) (k : String) (n : Node)
    (h : lookupL l k = some n) : (k, n) ∈ l := by
  induction l with
  | nil => cases h
  | cons p t ih =>
    rw [lookupL] at h
    by_cases hp : p.1 = k
    · rw [if_pos hp] at h
      have hn : p.2 = n := Option.some.inj h
      have : (k, n) = p := by
        cases p with
        | mk a b => cases hp; cases hn; rfl
      rw [this]
      exact List.mem_cons_self p t
    · rw [if_neg hp] at h
      exact List.mem_cons_of_mem p (ih h)

theorem lookupL_of_mem_nodup (l : List (String × Node)) (k : String) (n : Node)
    (hnd : (l.map Prod.fst).Nodup) (hm : (k, n) ∈ l) : lookupL l k = some n := by
  induction l with
  | nil => cases hm
  | cons p t ih =>
    rw [List.map_cons, List.nodup_cons] at hnd
    rcases List.mem_cons.1 hm with h | h
    · rw [lookupL, ← h]
      simp
    · have hk : k ∈ t.map Prod.fst := List.mem_map.2 ⟨(k, n), h, rfl⟩
      have hp : p.1 ≠ k := fun hc => hnd.1 (hc ▸ hk)
      rw [lookupL, if_neg hp]
      exact ih hnd.2 h

theorem lookupL_append_of_some (l1 l2 : List (String × Node)) (k : String) (n : Node)
    (h : lookupL l1 k = some n) : lookupL (l1 ++ l2) k = some n := by
  induction l1 with
  | nil => cases h
  | cons p t ih =>
    rw [lookupL] at h
    by_cases hp : p.1 = k
    · rw [if_pos hp] at h
      simp [lookupL, hp, h]
    · rw [if_neg hp] at h
      simp [lookupL, hp, ih h]

theorem lookupL_append_of_none (l1 l2 : List (String × Node)) (k : String)
    (h : lookupL l1 k = none) : lookupL (l1 ++ l2) k = lookupL l2 k := by
  induction l1 with
  | nil => rfl
  | cons p t ih =>
    rw [lookupL] at h
    by_cases hp : p.1 = k
    · rw [if_pos hp] at h; cases h
    · rw [if_neg hp] at h
      simp [lookupL, hp, ih h]

/-! ## Well-formedness predicates and run invariants -/

/-- Keys are unique and every node's `name` equals its key (maintained by `add`). -/
@[reducible] def Graph.Wf (g : Graph) : Prop :=
  (g.nodes.map Prod.fst).Nodup ∧ ∀ p ∈ g.nodes, p.2.name = p.1

/-- The pre-run state: no node has been reached, finished, or given a passage edge. -/
@[reducible] def Graph.FreshState (g : Graph) : Prop :=
  ∀ p ∈ g.nodes, p.2.costed = -1 ∧ p.2.done = false ∧ p.2.passage = none

/-- Every edge weight is non-negative (the documented Dijkstra precondition). -/
@[reducible] def Graph.NonnegCosts (g : Graph) : Prop :=
  ∀ p ∈ g.nodes, ∀ e ∈ p.2.edges, 0 ≤ e.cost

theorem modifyL_of_none (l : List (String × Node)) (k : String) (f : Node → Node)
    (h : lookupL l k = none) : modifyL l k f = l := by
  induction l with
  | nil => rfl
  | cons p t ih =>
    rw [lookupL] at h
    by_cases hp : p.1 = k
    · rw [if_pos hp] at h; cases h
    · rw [if_neg hp] at h
      rw [modifyL, if_neg hp, ih h]

/-- Invariant holding at the top of every settle-loop iteration: a reached node other
than `start` carries the predecessor link, the passage edge, and the cost equation of
the relaxation that last updated it, and that predecessor is a finished reached node. -/
structure Inv (start : String) (g : Graph) : Prop where
  nodup : (g.nodes.map Prod.fst).Nodup
  names : ∀ p ∈ g.nodes, p.2.name = p.1
  nonneg : ∀ p ∈ g.nodes, ∀ e ∈ p.2.edges, 0 ≤ e.cost
  startOk : ∃ ns, g.lookupNode start = some ns ∧ ns.costed = 0 ∧ ns.passage = none
  chain : ∀ p ∈ g.nodes, p.1 ≠ start → 0 ≤ p.2.costed →
    ∃ u e nu, p.2.prev = some u ∧ p.2.passage = some e ∧ g.lookupNode u = some nu ∧
      0 ≤ nu.costed ∧ nu.done = true ∧ p.2.costed = nu.costed + e.cost

/-- The same invariant in the middle of an iteration that is relaxing the edges of the
settled node `dn`: predecessors may also be `dn` itself, which is not yet marked done. -/
structure InvMid (start dn : String) (g : Graph) : Prop where
  nodup : (g.nodes.map Prod.fst).Nodup
  names : ∀ p ∈ g.nodes, p.2.name = p.1
  nonneg : ∀ p ∈ g.nodes, ∀ e ∈ p.2.edges, 0 ≤ e.cost
  startOk : ∃ ns, g.lookupNode start = some ns ∧ ns.costed = 0 ∧ ns.passage = none
  dnOk : ∃ nd, g.lookupNode dn = some nd ∧ nd.done = false ∧ 0 ≤ nd.costed
  chain : ∀ p ∈ g.nodes, p.1 ≠ start → 0 ≤ p.2.costed →
    ∃ u e nu, p.2.prev = some u ∧ p.2.passage = some e ∧ g.lookupNode u = some nu ∧
      0 ≤ nu.costed ∧ (nu.done = true ∨ u = dn) ∧ p.2.costed = nu.costed + e.cost

theorem relaxEdge_invMid (start dn : String) (g : Graph) (e : Edge)
    (h : InvMid start dn g) (hc : 0 ≤ e.cost) : InvMid start dn (g.relaxEdge dn e) := by
  rw [Graph.relaxEdge]
  by_cases hdone : g.is_done_node e.next = true
  · rw [if_pos hdone]; exact h
  · rw [if_neg hdone]
    obtain ⟨nd, hnd, hnddone, hndc⟩ := h.dnOk
    have hcost_dn : g.node_costed dn = nd.costed := by
      rw [Graph.node_costed, hnd]
    by_cases hguard : g.node_costed e.next = -1 ∨
        g.node_costed dn + e.cost < g.node_costed e.next
    case neg => rw [if_neg hguard]; exact h
    case pos =>
      rw [if_pos hguard]
      -- the updated node exists (otherwise the update is a no-op) and is not done
      cases hne : g.lookupNode e.next with
      | none =>
        have : g.update_node_edge e.next (g.node_costed dn + e.cost) dn e = g := by
          rw [Graph.update_node_edge, Graph.modifyNode, modifyL_of_none _ _ _ hne]
        rw [this]; exact h
      | some nn =>
        have hnn_done : nn.done = false := by
          rw [Graph.is_done_node, hne] at hdone
          cases hb : nn.done
          · rfl
          · exact absurd hb hdone
        have hcost_next : g.node_costed e.next = nn.costed := by
          rw [Graph.node_costed, hne]
        -- the updated node is neither `start` nor `dn`
        obtain ⟨ns, hns, hns0, hnsp⟩ := h.startOk
        have hnew_nonneg : 0 ≤ g.node_costed dn + e.cost := by
          rw [hcost_dn]; exact add_nonneg hndc hc
        have hne_start : e.next ≠ start := by
          intro hcontra
          have h2 : nn = ns := by
            rw [hcontra, hns] at hne
            exact (Option.some.inj hne).symm
          rcases hguard with h1 | h1
          · rw [hcost_next, h2, hns0] at h1
            exact absurd h1 (by decide)
          · rw [hcost_next, h2, hns0] at h1
            exact absurd h1 (not_lt.mpr hnew_nonneg)
        have hne_dn : e.next ≠ dn := by
          intro hcontra
          have h2 : nn = nd := by
            rw [hcontra, hnd] at hne
            exact (Option.some.inj hne).symm
          rcases hguard with h1 | h1
          · rw [hcost_next, h2] at h1
            rw [h1] at hndc
            exact absurd hndc (by decide)
          · rw [hcost_next, h2, hcost_dn] at h1
            omega
        -- now establish each field of the invariant for the updated graph
        set f : Node → Node := fun n =>
          { n with costed := g.node_costed dn + e.cost, prev := some dn, passage := some e }
          with hf
        have hupd : g.update_node_edge e.next (g.node_costed dn + e.cost) dn e =
            g.modifyNode e.next f := rfl
        rw [hupd]
        refine ⟨?_, ?_, ?_, ?_, ?_, ?_⟩
        · rw [Graph.modifyNode]
          exact (map_fst_modifyL g.nodes e.next f) ▸ h.nodup
        · intro p hp
          obtain ⟨q, hq, hval⟩ := mem_modifyL g.nodes e.next f p hp
          by_cases hq1 : q.1 = e.next
          · rw [hval, if_pos hq1]
            exact h.names q hq
          · rw [hval, if_neg hq1]
            exact h.names q hq
        · intro p hp
          obtain ⟨q, hq, hval⟩ := mem_modifyL g.nodes e.next f p hp
          by_cases hq1 : q.1 = e.next
          · rw [hval, if_pos hq1]
            exact h.nonneg q hq
          · rw [hval, if_neg hq1]
            exact h.nonneg q hq
        · refine ⟨ns, ?_, hns0, hnsp⟩
          rw [Graph.modifyNode, Graph.lookupNode]
          rw [lookupL_modifyL_ne g.nodes e.next start f (fun hcontra => hne_start hcontra.symm)]
          exact hns
        · refine ⟨nd, ?_, hnddone, hndc⟩
          rw [Graph.modifyNode, Graph.lookupNode]
          rw [lookupL_modifyL_ne g.nodes e.next dn f (fun hcontra => hne_dn hcontra.symm)]
          exact hnd
        · intro p hp hpstart hpcost
          obtain ⟨q, hq, hval⟩ := mem_modifyL g.nodes e.next f p hp
          by_cases hq1 : q.1 = e.next
          · -- the freshly relaxed node: its new chain data points at `dn`
            refine ⟨dn, e, nd, ?_, ?_, ?_, hndc, Or.inr rfl, ?_⟩
            · rw [hval, if_pos hq1]
            · rw [hval, if_pos hq1]
            · rw [Graph.modifyNode, Graph.lookupNode]
              rw [lookupL_modifyL_ne g.nodes e.next dn f (fun hcontra => hne_dn hcontra.symm)]
              exact hnd
            · rw [hval, if_pos hq1]
              show g.node_costed dn + e.cost = nd.costed + e.cost
              rw [hcost_dn]
          · -- an untouched node: its old chain data survives
            have hpq : p = q := by rw [hval, if_neg hq1]
            have hqstart : q.1 ≠ start := by rw [← hpq]; exact hpstart
            have hqcost : 0 ≤ q.2.costed := by rw [← hpq]; exact hpcost
            obtain ⟨u, e', nu, hprev, hpass, hu, huc, hud, heq⟩ := h.chain q hq hqstart hqcost
            have hu_ne : u ≠ e.next := by
              intro hcontra
              rw [hcontra, hne] at hu
              cases hu
              rcases hud with h1 | h1
              · rw [h1] at hnn_done; cases hnn_done
              · exact hne_dn (hcontra.symm.trans h1)
            refine ⟨u, e', nu, ?_, ?_, ?_, huc, hud, ?_⟩
            · rw [hpq]; exact hprev
            · rw [hpq]; exact hpass
            · rw [Graph.modifyNode, Graph.lookupNode]
              rw [lookupL_modifyL_ne g.nodes e.next u f hu_ne]
              exact hu
            · rw [hpq]; exact heq

theorem relaxEdges_invMid (start dn : String) (g : Graph) (es : List Edge)
    (h : InvMid start dn g) (hc : ∀ e ∈ es, 0 ≤ e.cost) :
    InvMid start dn (g.relaxEdges dn es) := by
  induction es generalizing g with
  | nil => exact h
  | cons e t ih =>
    exact ih (g.relaxEdge dn e)
      (relaxEdge_invMid start dn g e h (hc e (List.mem_cons_self e t)))
      (fun e' he' => hc e' (List.mem_cons_of_mem e he'))

theorem invMid_update_done (start dn : String) (g : Graph)
    (h : InvMid start dn g) : Inv start (g.update_node_done dn true) := by
  set f : Node → Node := fun n => { n with done := true } with hf
  have hupd : g.update_node_done dn true = g.modifyNode dn f := rfl
  rw [hupd]
  obtain ⟨nd, hnd, hnddone, hndc⟩ := h.dnOk
  refine ⟨?_, ?_, ?_, ?_, ?_⟩
  · rw [Graph.modifyNode]
    exact (map_fst_modifyL g.nodes dn f) ▸ h.nodup
  · intro p hp
    obtain ⟨q, hq, hval⟩ := mem_modifyL g.nodes dn f p hp
    by_cases hq1 : q.1 = dn
    · rw [hval, if_pos hq1]; exact h.names q hq
    · rw [hval, if_neg hq1]; exact h.names q hq
  · intro p hp
    obtain ⟨q, hq, hval⟩ := mem_modifyL g.nodes dn f p hp
    by_cases hq1 : q.1 = dn
    · rw [hval, if_pos hq1]; exact h.nonneg q hq
    · rw [hval, if_neg hq1]; exact h.nonneg q hq
  · obtain ⟨ns, hns, hns0, hnsp⟩ := h.startOk
    by_cases hsd : start = dn
    · refine ⟨f ns, ?_, hns0, hnsp⟩
      rw [Graph.modifyNode, Graph.lookupNode, hsd, lookupL_modifyL_self]
      rw [hsd] at hns
      rw [Graph.lookupNode] at hns
      rw [hns]
      rfl
    · refine ⟨ns, ?_, hns0, hnsp⟩
      rw [Graph.modifyNode, Graph.lookupNode, lookupL_modifyL_ne g.nodes dn start f hsd]
      exact hns
  · intro p hp hpstart hpcost
    obtain ⟨q, hq, hval⟩ := mem_modifyL g.nodes dn f p hp
    have hqfields : p.2.costed = q.2.costed ∧ p.2.prev = q.2.prev ∧
        p.2.passage = q.2.passage ∧ p.1 = q.1 := by
      by_cases hq1 : q.1 = dn
      · rw [hval, if_pos hq1]; exact ⟨rfl, rfl, rfl, rfl⟩
      · rw [hval, if_neg hq1]; exact ⟨rfl, rfl, rfl, rfl⟩
    obtain ⟨hcq, hprevq, hpassq, hkeyq⟩ := hqfields
    have hqstart : q.1 ≠ start := fun hcontra => hpstart (hkeyq ▸ hcontra)
    have hqcost : 0 ≤ q.2.costed := hcq ▸ hpcost
    obtain ⟨u, e', nu, hprev, hpass, hu, huc, hud, heq⟩ := h.chain q hq hqstart hqcost
    by_cases hu1 : u = dn
    · -- the predecessor is the node being marked done
      have hnunu : nu = nd := by
        rw [hu1] at hu
        exact Option.some.inj (hu.symm.trans hnd)
      refine ⟨u, e', f nd, ?_, ?_, ?_, hndc, rfl, ?_⟩
      · rw [hprevq]; exact hprev
      · rw [hpassq]; exact hpass
      · rw [Graph.modifyNode, Graph.lookupNode, hu1, lookupL_modifyL_self]
        rw [Graph.lookupNode] at hnd
        rw [hnd]
        rfl
      · rw [hcq, heq, hnunu]
    · refine ⟨u, e', nu, ?_, ?_, ?_, huc, ?_, ?_⟩
      · rw [hprevq]; exact hprev
      · rw [hpassq]; exact hpass
      · rw [Graph.modifyNode, Graph.lookupNode, lookupL_modifyL_ne g.nodes dn u f hu1]
        exact hu
      · rcases hud with h1 | h1
        · exact h1
        · exact absurd h1 hu1
      · rw [hcq]; exact heq

theorem selectAux_mem (g : Graph) (dn : String) :
    ∀ (l : List (String × Node)) (acc : Option String),
      (∀ p ∈ l, p ∈ g.nodes) →
      (∀ c, acc = some c → ∃ q ∈ g.nodes, q.1 = c ∧ q.2.done = false ∧ 0 ≤ q.2.costed) →
      selectAux g l acc = some dn →
      ∃ q ∈ g.nodes, q.1 = dn ∧ q.2.done = false ∧ 0 ≤ q.2.costed := by
  intro l
  induction l with
  | nil =>
    intro acc hl hacc hres
    exact hacc dn hres
  | cons p t ih =>
    intro acc hl hacc hres
    have hpn : p ∈ g.nodes := hl p (List.mem_cons_self p t)
    have hl' : ∀ q ∈ t, q ∈ g.nodes := fun q hq => hl q (List.mem_cons_of_mem p hq)
    by_cases hskip : p.2.done = true ∨ p.2.costed < 0
    · cases acc with
      | none =>
        rw [selectAux, if_pos hskip] at hres
        exact ih none hl' hacc hres
      | some cur =>
        rw [selectAux, if_pos hskip] at hres
        exact ih (some cur) hl' hacc hres
    · have hskip' := hskip
      push_neg at hskip'
      have hpdone : p.2.done = false := by
        cases hb : p.2.done
        · rfl
        · exact absurd hb hskip'.1
      have hpcost : 0 ≤ p.2.costed := hskip'.2
      have hpfact : ∃ q ∈ g.nodes, q.1 = p.1 ∧ q.2.done = false ∧ 0 ≤ q.2.costed :=
        ⟨p, hpn, rfl, hpdone, hpcost⟩
      cases acc with
      | none =>
        rw [selectAux, if_neg hskip] at hres
        exact ih (some p.1) hl' (fun c hc => (Option.some.inj hc) ▸ hpfact) hres
      | some cur =>
        rw [selectAux, if_neg hskip] at hres
        by_cases hlt : p.2.costed < g.node_costed cur
        · rw [if_pos hlt] at hres
          exact ih (some p.1) hl' (fun c hc => (Option.some.inj hc) ▸ hpfact) hres
        · rw [if_neg hlt] at hres
          exact ih (some cur) hl' (fun c hc => hacc c hc) hres

theorem selectMin_spec (g : Graph) (dn : String) (h : selectMin g = some dn) :
    ∃ q ∈ g.nodes, q.1 = dn ∧ q.2.done = false ∧ 0 ≤ q.2.costed :=
  selectAux_mem g dn g.nodes none (fun p hp => hp) (fun c hc => by cases hc) h

theorem inv_select_invMid (start dn : String) (g : Graph)
    (h : Inv start g) (hsel : selectMin g = some dn) : InvMid start dn g := by
  obtain ⟨q, hq, hk, hd, hc⟩ := selectMin_spec g dn hsel
  have hlq : g.lookupNode dn = some q.2 := by
    rw [Graph.lookupNode]
    have : ((dn, q.2) : String × Node) ∈ g.nodes := by
      cases q with
      | mk a b => cases hk; exact hq
    exact lookupL_of_mem_nodup g.nodes dn q.2 h.nodup this
  exact ⟨h.nodup, h.names, h.nonneg, h.startOk, ⟨q.2, hlq, hd, hc⟩,
    fun p hp h1 h2 => by
      obtain ⟨u, e, nu, ha, hb, hcc, hdd, he, hff⟩ := h.chain p hp h1 h2
      exact ⟨u, e, nu, ha, hb, hcc, hdd, Or.inl he, hff⟩⟩

theorem settleLoop_inv (start goal : String) (fuel : Nat) (g : Graph)
    (h : Inv start g) : Inv start (settleLoop fuel g goal) := by
  induction fuel generalizing g with
  | zero => exact h
  | succ n ih =>
    rw [settleLoop]
    cases hsel : selectMin g with
    | none => exact h
    | some dn =>
      have hmid := inv_select_invMid start dn g h hsel
      have hedges : ∀ e ∈ g.node_edges dn, 0 ≤ e.cost := by
        intro e he
        rw [Graph.node_edges] at he
        obtain ⟨nd, hnd, h1, h2⟩ := hmid.dnOk
        rw [hnd] at he
        exact h.nonneg (dn, nd) (lookupL_mem g.nodes dn nd hnd) e he
      have h2 : Inv start ((g.relaxEdges dn (g.node_edges dn)).update_node_done dn true) :=
        invMid_update_done start dn _ (relaxEdges_invMid start dn g _ hmid hedges)
      change Inv start
        (if dn = goal then (g.relaxEdges dn (g.node_edges dn)).update_node_done dn true
         else settleLoop n ((g.relaxEdges dn (g.node_edges dn)).update_node_done dn true) goal)
      by_cases hg : dn = goal
      · rw [if_pos hg]; exact h2
      · rw [if_neg hg]; exact ih _ h2

/-! ## Cost of the reconstructed path -/

/-- Sum of the `cost` values of the edge-traversal elements of a passage list. -/
def sumEdges : List WayKind → Int
  | [] => 0
  | WayKind.Edge _ c :: t => c + sumEdges t
  | WayKind.Node _ :: t => sumEdges t
  | WayKind.None :: t => sumEdges t

theorem sumEdges_append (a b : List WayKind) :
    sumEdges (a ++ b) = sumEdges a + sumEdges b := by
  induction a with
  | nil => simp [sumEdges]
  | cons w t ih =>
    cases w <;> simp [sumEdges, ih] <;> omega

theorem sumEdges_reverse (l : List WayKind) : sumEdges l.reverse = sumEdges l := by
  induction l with
  | nil => rfl
  | cons w t ih =>
    rw [List.reverse_cons, sumEdges_append, ih]
    cases w <;> simp [sumEdges] <;> omega

theorem buildPath_sum (start : String) (g : Graph) (hinv : Inv start g) :
    ∀ (fuel : Nat) (cur : String) (n : Node) (l : List WayKind),
      g.lookupNode cur = some n → 0 ≤ n.costed →
      buildPath fuel g cur start = some l → sumEdges l = n.costed := by
  intro fuel
  induction fuel with
  | zero =>
    intro cur n l hlk hc hb
    cases hb
  | succ fu ih =>
    intro cur n l hlk hc hb
    rw [buildPath] at hb
    split at hb
    case h_1 heq =>
      rw [hlk] at heq; cases heq
    case h_2 node heq =>
      rw [hlk] at heq
      have hnode : n = node := Option.some.inj heq
      subst hnode
      have hmem : (cur, n) ∈ g.nodes := lookupL_mem g.nodes cur n hlk
      by_cases hname : n.name = start
      · rw [if_pos hname] at hb
        have hl : l = pathSeg n := (Option.some.inj hb).symm
        have hcur : cur = start := (hinv.names (cur, n) hmem).symm.trans hname
        obtain ⟨ns, hns, hns0, hnsp⟩ := hinv.startOk
        have hn_ns : n = ns := by
          rw [hcur] at hlk
          exact Option.some.inj (hlk.symm.trans hns)
        rw [hl, hn_ns]
        simp [pathSeg, hnsp, sumEdges, hns0]
      · rw [if_neg hname] at hb
        have hcur : cur ≠ start := by
          intro hcontra
          exact hname ((hinv.names (cur, n) hmem).trans hcontra)
        obtain ⟨u, e', nu, hprev, hpass, hu, huc, hud, heqc⟩ := hinv.chain (cur, n) hmem hcur hc
        have hprev' : n.prev = some u := hprev
        have hpass' : n.passage = some e' := hpass
        have heqc' : n.costed = nu.costed + e'.cost := heqc
        split at hb
        next hpn => rw [hprev'] at hpn; cases hpn
        next p hpn =>
          rw [hprev'] at hpn
          have hpu : u = p := Option.some.inj hpn
          subst hpu
          obtain ⟨rest, hrest, hlval⟩ := Option.map_eq_some'.mp hb
          have hsum_rest := ih u nu rest hu huc hrest
          rw [← hlval, sumEdges_append, hsum_rest]
          have hseg : sumEdges (pathSeg n) = e'.cost := by
            simp [pathSeg, hpass', sumEdges]
          rw [hseg, heqc']
          omega

theorem spFinish_sum (g1 : Graph) (start goal : String) (sp : ShortestPath) (g2 : Graph)
    (hinv : Inv start g1)
    (hrun : spFinish g1 start goal = some (sp, g2)) (hpos : 0 ≤ sp.total_cost) :
    sumEdges sp.passages = sp.total_cost := by
  rw [spFinish] at hrun
  split at hrun
  case h_1 => cases hrun
  case h_2 passages hbp =>
    split at hrun
    case h_1 => cases hrun
    case h_2 goal_node hlk =>
      have h1 := Option.some.inj hrun
      have hsp : sp = ⟨passages.reverse, goal_node.costed⟩ := (congrArg Prod.fst h1).symm
      have hcost : 0 ≤ goal_node.costed := by
        rw [hsp] at hpos
        exact hpos
      have hsum := buildPath_sum start g1 hinv (g1.nodes.length + 1) goal goal_node passages
        hlk hcost hbp
      rw [hsp]
      show sumEdges passages.reverse = goal_node.costed
      rw [sumEdges_reverse, hsum]

/-- The invariant holds right after `start.costed` is set to `0` on a fresh graph. -/
theorem inv_init (g : Graph) (start : String) (hwf : g.Wf) (hfresh : g.FreshState)
    (hnn : g.NonnegCosts) (hstart : g.containsKey start = true) :
    Inv start (g.modifyNode start (fun n => { n with costed := 0 })) := by
  set f : Node → Node := fun n => { n with costed := 0 } with hf
  obtain ⟨n0, hn0⟩ : ∃ n0, g.lookupNode start = some n0 := by
    rw [Graph.containsKey] at hstart
    exact Option.isSome_iff_exists.mp hstart
  refine ⟨?_, ?_, ?_, ?_, ?_⟩
  · rw [Graph.modifyNode]
    exact (map_fst_modifyL g.nodes start f) ▸ hwf.1
  · intro p hp
    obtain ⟨q, hq, hval⟩ := mem_modifyL g.nodes start f p hp
    by_cases hq1 : q.1 = start
    · rw [hval, if_pos hq1]; exact hwf.2 q hq
    · rw [hval, if_neg hq1]; exact hwf.2 q hq
  · intro p hp
    obtain ⟨q, hq, hval⟩ := mem_modifyL g.nodes start f p hp
    by_cases hq1 : q.1 = start
    · rw [hval, if_pos hq1]; exact hnn q hq
    · rw [hval, if_neg hq1]; exact hnn q hq
  · refine ⟨f n0, ?_, rfl, ?_⟩
    · rw [Graph.modifyNode, Graph.lookupNode, lookupL_modifyL_self]
      rw [Graph.lookupNode] at hn0
      rw [hn0]
      rfl
    · show n0.passage = none
      exact (hfresh (start, n0) (lookupL_mem g.nodes start n0 hn0)).2.2
  · intro p hp hpstart hpcost
    obtain ⟨q, hq, hval⟩ := mem_modifyL g.nodes start f p hp
    by_cases hq1 : q.1 = start
    · have : p.1 = start := by rw [hval, if_pos hq1]; exact hq1
      exact absurd this hpstart
    · have hpq : p = q := by rw [hval, if_neg hq1]
      have : q.2.costed = -1 := (hfresh q hq).1
      rw [hpq, this] at hpcost
      exact absurd hpcost (by decide)

/-! ## Key absence is preserved by the run (for a goal that is not in the map) -/

theorem containsKey_false_lookup_none (g : Graph) (k : String)
    (h : g.containsKey k = false) : g.lookupNode k = none := by
  rw [Graph.containsKey] at h
  cases ho : g.lookupNode k with
  | none => rfl
  | some v => rw [ho] at h; simp at h

theorem relaxEdge_lookup_none (g : Graph) (dn : String) (e : Edge) (k : String)
    (h : g.lookupNode k = none) : (g.relaxEdge dn e).lookupNode k = none := by
  rw [Graph.relaxEdge]
  by_cases h1 : g.is_done_node e.next = true
  · rw [if_pos h1]; exact h
  · rw [if_neg h1]
    by_cases h2 : g.node_costed e.next = -1 ∨
        g.node_costed dn + e.cost < g.node_costed e.next
    · rw [if_pos h2]
      rw [Graph.update_node_edge, Graph.modifyNode, Graph.lookupNode]
      exact (lookupL_modifyL_eq_none g.nodes e.next k _).mpr h
    · rw [if_neg h2]; exact h

theorem relaxEdges_lookup_none (dn k : String) (es : List Edge) (g : Graph)
    (h : g.lookupNode k = none) : (g.relaxEdges dn es).lookupNode k = none := by
  induction es generalizing g with
  | nil => exact h
  | cons e t ih => exact ih (g.relaxEdge dn e) (relaxEdge_lookup_none g dn e k h)

theorem update_done_lookup_none (g : Graph) (dn k : String) (d : Bool)
    (h : g.lookupNode k = none) : (g.update_node_done dn d).lookupNode k = none := by
  rw [Graph.update_node_done, Graph.modifyNode, Graph.lookupNode]
  exact (lookupL_modifyL_eq_none g.nodes dn k _).mpr h

theorem settleLoop_lookup_none (goal k : String) (fuel : Nat) (g : Graph)
    (h : g.lookupNode k = none) : (settleLoop fuel g goal).lookupNode k = none := by
  induction fuel generalizing g with
  | zero => exact h
  | succ n ih =>
    rw [settleLoop]
    cases hsel : selectMin g with
    | none => exact h
    | some dn =>
      have h2 : ((g.relaxEdges dn (g.node_edges dn)).update_node_done dn true).lookupNode k =
          none :=
        update_done_lookup_none _ dn k true (relaxEdges_lookup_none dn k _ g h)
      change ((if dn = goal then (g.relaxEdges dn (g.node_edges dn)).update_node_done dn true
        else settleLoop n ((g.relaxEdges dn (g.node_edges dn)).update_node_done dn true)
          goal).lookupNode k = none)
      by_cases hg : dn = goal
      · rw [if_pos hg]; exact h2
      · rw [if_neg hg]; exact ih _ h2

theorem spFinish_goal_missing (g1 : Graph) (start goal : String)
    (h : g1.lookupNode goal = none) : spFinish g1 start goal = none := by
  have hb : buildPath (g1.nodes.length + 1) g1 goal start = some [] := by
    rw [buildPath, h]
  rw [spFinish, hb, h]

/-! ## A fresh graph queried with `start = goal` -/

theorem selectAux_fresh (g : Graph) (start : String)
    (hstart0 : g.node_costed start = 0) :
    ∀ (l : List (String × Node)) (acc : Option String),
      (∀ p ∈ l, p.1 = start → p.2.done = false ∧ p.2.costed = 0) →
      (∀ p ∈ l, p.1 ≠ start → p.2.costed = -1) →
      (acc = none ∨ acc = some start) →
      ((∃ p ∈ l, p.1 = start) ∨ acc = some start) →
      selectAux g l acc = some start := by
  intro l
  induction l with
  | nil =>
    intro acc h1 h2 hacc hex
    rcases hex with ⟨p, hp, _⟩ | h
    · cases hp
    · rw [selectAux]; exact h
  | cons p t ih =>
    intro acc h1 h2 hacc hex
    have h1t : ∀ q ∈ t, q.1 = start → q.2.done = false ∧ q.2.costed = 0 :=
      fun q hq => h1 q (List.mem_cons_of_mem p hq)
    have h2t : ∀ q ∈ t, q.1 ≠ start → q.2.costed = -1 :=
      fun q hq => h2 q (List.mem_cons_of_mem p hq)
    by_cases hp : p.1 = start
    · obtain ⟨hpdone, hpcost⟩ := h1 p (List.mem_cons_self p t) hp
      have hskip : ¬(p.2.done = true ∨ p.2.costed < 0) := by
        rw [hpdone, hpcost]; simp
      rcases hacc with rfl | rfl
      · rw [selectAux, if_neg hskip, hp]
        exact ih (some start) h1t h2t (Or.inr rfl) (Or.inr rfl)
      · rw [selectAux, if_neg hskip]
        have hnlt : ¬(p.2.costed < g.node_costed start) := by
          rw [hpcost, hstart0]; simp
        rw [if_neg hnlt]
        exact ih (some start) h1t h2t (Or.inr rfl) (Or.inr rfl)
    · have hpcost : p.2.costed = -1 := h2 p (List.mem_cons_self p t) hp
      have hskip : p.2.done = true ∨ p.2.costed < 0 := by
        rw [hpcost]; right; decide
      have hex' : (∃ q ∈ t, q.1 = start) ∨ (some start : Option String) = some start := by
        rcases hex with ⟨q, hq, hqs⟩ | h
        · rcases List.mem_cons.1 hq with rfl | hq'
          · exact absurd hqs hp
          · exact Or.inl ⟨q, hq', hqs⟩
        · exact Or.inr rfl
      have hex'' : ∀ acc' : Option String, acc' = some start →
          ((∃ q ∈ t, q.1 = start) ∨ acc' = some start) := by
        intro acc' ha
        rcases hex' with h | _
        · exact Or.inl h
        · exact Or.inr ha
      rcases hacc with rfl | rfl
      · rw [selectAux, if_pos hskip]
        have hexn : (∃ q ∈ t, q.1 = start) ∨ (none : Option String) = some start := by
          rcases hex with ⟨q, hq, hqs⟩ | h
          · rcases List.mem_cons.1 hq with rfl | hq'
            · exact absurd hqs hp
            · exact Or.inl ⟨q, hq', hqs⟩
          · cases h
        exact ih none h1t h2t (Or.inl rfl) hexn
      · rw [selectAux, if_pos hskip]
        exact ih (some start) h1t h2t (Or.inr rfl) (hex'' (some start) rfl)

/-- `InvMid` holds right after `start.costed := 0` on a fresh graph, with `start`
itself as the node being settled. -/
theorem invMid_init (g : Graph) (start : String) (hwf : g.Wf) (hfresh : g.FreshState)
    (hnn : g.NonnegCosts) (hstart : g.containsKey start = true) :
    InvMid start start (g.modifyNode start (fun n => { n with costed := 0 })) := by
  have hinv := inv_init g start hwf hfresh hnn hstart
  obtain ⟨n0, hn0⟩ : ∃ n0, g.lookupNode start = some n0 := by
    have hstart' := hstart
    rw [Graph.containsKey] at hstart'
    exact Option.isSome_iff_exists.mp hstart'
  have hdn : ∃ nd, (g.modifyNode start (fun n => { n with costed := 0 })).lookupNode start =
      some nd ∧ nd.done = false ∧ 0 ≤ nd.costed := by
    refine ⟨{ n0 with costed := 0 }, ?_, ?_, ?_⟩
    · rw [Graph.modifyNode, Graph.lookupNode, lookupL_modifyL_self]
      rw [Graph.lookupNode] at hn0
      rw [hn0]
      rfl
    · show n0.done = false
      exact (hfresh (start, n0) (lookupL_mem g.nodes start n0 hn0)).2.1
    · show (0 : Int) ≤ 0
      decide
  exact ⟨hinv.nodup, hinv.names, hinv.nonneg, hinv.startOk, hdn,
    fun p hp h1 h2 => by
      obtain ⟨u, e, nu, ha, hb, hcc, hdd, he, hff⟩ := hinv.chain p hp h1 h2
      exact ⟨u, e, nu, ha, hb, hcc, hdd, Or.inl he, hff⟩⟩

/-! ## Behaviour of `add` -/

theorem bool_eq_false_of_not_true (b : Bool) (h : ¬(b = true)) : b = false := by
  cases b
  · rfl
  · exact absurd rfl h

theorem lookupL_singleton_self (k : String) (d : Node) : lookupL [(k, d)] k = some d := by
  rw [lookupL, if_pos rfl]

theorem lookupL_singleton_ne (k k' : String) (d : Node) (h : ¬(k = k')) :
    lookupL [(k, d)] k' = none := by
  rw [lookupL, if_neg h]
  rfl

theorem node_edges_of_lookup (g : Graph) (k : String) (n : Node)
    (h : g.lookupNode k = some n) : g.node_edges k = n.edges := by
  rw [Graph.node_edges, h]

theorem node_edges_of_none (g : Graph) (k : String)
    (h : g.lookupNode k = none) : g.node_edges k = [] := by
  rw [Graph.node_edges, h]

/-- One `add` appends exactly one edge at the end of the source's edge list,
whatever the graph looked like before. -/
theorem node_edges_add (g : Graph) (src dst : String) (c : Int) (nm : String) :
    (g.add src dst c nm).node_edges src = g.node_edges src ++ [⟨dst, nm, c⟩] := by
  rw [Graph.add]
  by_cases hsrc : g.containsKey src = true
  · obtain ⟨n1, hn1⟩ : ∃ n1, g.lookupNode src = some n1 := by
      have hsrc' := hsrc
      rw [Graph.containsKey] at hsrc'
      exact Option.isSome_iff_exists.mp hsrc'
    have hg1 : (g.entryOrInsert dst (dstDefault src dst)).lookupNode src = some n1 := by
      rw [Graph.entryOrInsert]
      by_cases hd : g.containsKey dst = true
      · rw [if_pos hd]; exact hn1
      · rw [if_neg hd]
        show lookupL (g.nodes ++ [(dst, dstDefault src dst)]) src = some n1
        exact lookupL_append_of_some g.nodes _ src n1 hn1
    have hc1 : (g.entryOrInsert dst (dstDefault src dst)).containsKey src = true := by
      rw [Graph.containsKey, hg1]
      rfl
    have hg2 : (g.entryOrInsert dst (dstDefault src dst)).entryOrInsert src (srcDefault src) =
        g.entryOrInsert dst (dstDefault src dst) := by
      rw [Graph.entryOrInsert, if_pos hc1]
    rw [hg2]
    have hfinal : ((g.entryOrInsert dst (dstDefault src dst)).modifyNode src
        (fun n => { n with edges := n.edges ++ [⟨dst, nm, c⟩] })).node_edges src =
        n1.edges ++ [⟨dst, nm, c⟩] := by
      rw [Graph.node_edges, Graph.modifyNode, Graph.lookupNode, lookupL_modifyL_self]
      rw [Graph.lookupNode] at hg1
      rw [hg1]
      rfl
    rw [hfinal, node_edges_of_lookup g src n1 hn1]
  · have hsrcf : g.lookupNode src = none :=
      containsKey_false_lookup_none g src (bool_eq_false_of_not_true _ hsrc)
    rw [node_edges_of_none g src hsrcf]
    by_cases hsd : src = dst
    · subst hsd
      have hdf : ¬(g.containsKey src = true) := hsrc
      have hg1 : g.entryOrInsert src (dstDefault src src) =
          ⟨g.nodes ++ [(src, dstDefault src src)]⟩ := by
        rw [Graph.entryOrInsert, if_neg hdf]
      have hg1look : (g.entryOrInsert src (dstDefault src src)).lookupNode src =
          some (dstDefault src src) := by
        rw [hg1]
        show lookupL (g.nodes ++ [(src, dstDefault src src)]) src = some (dstDefault src src)
        rw [lookupL_append_of_none g.nodes _ src hsrcf]
        exact lookupL_singleton_self src (dstDefault src src)
      have hc1 : (g.entryOrInsert src (dstDefault src src)).containsKey src = true := by
        rw [Graph.containsKey, hg1look]
        rfl
      have hg2 : (g.entryOrInsert src (dstDefault src src)).entryOrInsert src (srcDefault src) =
          g.entryOrInsert src (dstDefault src src) := by
        rw [Graph.entryOrInsert, if_pos hc1]
      rw [hg2]
      rw [Graph.node_edges, Graph.modifyNode, Graph.lookupNode, lookupL_modifyL_self]
      rw [Graph.lookupNode] at hg1look
      rw [hg1look]
      rfl
    · have hg1look : (g.entryOrInsert dst (dstDefault src dst)).lookupNode src = none := by
        rw [Graph.entryOrInsert]
        by_cases hd : g.containsKey dst = true
        · rw [if_pos hd]; exact hsrcf
        · rw [if_neg hd]
          show lookupL (g.nodes ++ [(dst, dstDefault src dst)]) src = none
          rw [lookupL_append_of_none g.nodes _ src hsrcf]
          exact lookupL_singleton_ne dst src (dstDefault src dst) (fun hcontra => hsd hcontra.symm)
      have hc1 : ¬((g.entryOrInsert dst (dstDefault src dst)).containsKey src = true) := by
        rw [Graph.containsKey, hg1look]
        decide
      have hg2look : ((g.entryOrInsert dst (dstDefault src dst)).entryOrInsert src
          (srcDefault src)).lookupNode src = some (srcDefault src) := by
        rw [Graph.entryOrInsert, if_neg hc1]
        show lookupL ((g.entryOrInsert dst (dstDefault src dst)).nodes ++ [(src, srcDefault src)])
          src = some (srcDefault src)
        rw [lookupL_append_of_none _ _ src hg1look]
        exact lookupL_singleton_self src (srcDefault src)
      rw [Graph.node_edges, Graph.modifyNode, Graph.lookupNode, lookupL_modifyL_self]
      rw [Graph.lookupNode] at hg2look
      rw [hg2look]
      rfl

/-- After any sequence of relaxations the edge list is consulted element by element:
the fold over an extended edge list is the fold over the prefix followed by the
relaxation of each appended edge. -/
theorem relaxEdges_append_two (g : Graph) (dn : String) (es : List Edge) (e1 e2 : Edge) :
    g.relaxEdges dn (es ++ [e1, e2]) =
      ((g.relaxEdges dn es).relaxEdge dn e1).relaxEdge dn e2 := by
  rw [Graph.relaxEdges, Graph.relaxEdges, List.foldl_append]
  rfl

/-- `node_prev` is insensitive to a modification that does not change `prev`. -/
theorem node_prev_modify (g : Graph) (k x : String) (f : Node → Node)
    (hf : ∀ n, (f n).prev = n.prev) : (g.modifyNode k f).node_prev x = g.node_prev x := by
  rw [Graph.node_prev, Graph.node_prev, Graph.modifyNode, Graph.lookupNode, Graph.lookupNode]
  by_cases h : x = k
  · subst h
    rw [lookupL_modifyL_self]
    cases ho : lookupL g.nodes x with
    | none => rfl
    | some n => exact hf n
  · rw [lookupL_modifyL_ne g.nodes k x f h]

/-- A fresh `src` (absent, and distinct from `dst`) is created by `add` with
`prev = none`. -/
theorem add_prev_src (g : Graph) (src dst : String) (c : Int) (nm : String)
    (hsrc : g.containsKey src = false) (hsd : src ≠ dst) :
    (g.add src dst c nm).node_prev src = none := by
  rw [Graph.add]
  rw [node_prev_modify ((g.entryOrInsert dst (dstDefault src dst)).entryOrInsert src
    (srcDefault src)) src src
    (fun n => { n with edges := n.edges ++ [⟨dst, nm, c⟩] }) (fun n => rfl)]
  have hsrcf : g.lookupNode src = none := containsKey_false_lookup_none g src hsrc
  have hg1look : (g.entryOrInsert dst (dstDefault src dst)).lookupNode src = none := by
    rw [Graph.entryOrInsert]
    by_cases hd : g.containsKey dst = true
    · rw [if_pos hd]; exact hsrcf
    · rw [if_neg hd]
      show lookupL (g.nodes ++ [(dst, dstDefault src dst)]) src = none
      rw [lookupL_append_of_none g.nodes _ src hsrcf]
      exact lookupL_singleton_ne dst src (dstDefault src dst) (fun hcontra => hsd hcontra.symm)
  have hc1 : ¬((g.entryOrInsert dst (dstDefault src dst)).containsKey src = true) := by
    rw [Graph.containsKey, hg1look]
    decide
  rw [Graph.node_prev, Graph.entryOrInsert, if_neg hc1]
  show (match lookupL ((g.entryOrInsert dst (dstDefault src dst)).nodes ++
    [(src, srcDefault src)]) src with
    | some n => n.prev
    | none => none) = none
  rw [lookupL_append_of_none _ _ src hg1look, lookupL_singleton_self src (srcDefault src)]
  rfl

/-- A fresh `dst` is created by `add` with the placeholder `prev = some src`. -/
theorem add_prev_dst (g : Graph) (src dst : String) (c : Int) (nm : String)
    (hdst : g.containsKey dst = false) :
    (g.add src dst c nm).node_prev dst = some src := by
  rw [Graph.add]
  rw [node_prev_modify ((g.entryOrInsert dst (dstDefault src dst)).entryOrInsert src
    (srcDefault src)) src dst
    (fun n => { n with edges := n.edges ++ [⟨dst, nm, c⟩] }) (fun n => rfl)]
  have hdstf : g.lookupNode dst = none := containsKey_false_lookup_none g dst hdst
  have hdf : ¬(g.containsKey dst = true) := by
    rw [hdst]
    decide
  have hg1look : (g.entryOrInsert dst (dstDefault src dst)).lookupNode dst =
      some (dstDefault src dst) := by
    rw [Graph.entryOrInsert, if_neg hdf]
    show lookupL (g.nodes ++ [(dst, dstDefault src dst)]) dst = some (dstDefault src dst)
    rw [lookupL_append_of_none g.nodes _ dst hdstf]
    exact lookupL_singleton_self dst (dstDefault src dst)
  rw [Graph.node_prev, Graph.entryOrInsert]
  by_cases hc1 : (g.entryOrInsert dst (dstDefault src dst)).containsKey src = true
  · rw [if_pos hc1, hg1look]
    rfl
  · rw [if_neg hc1]
    show (match lookupL ((g.entryOrInsert dst (dstDefault src dst)).nodes ++
      [(src, srcDefault src)]) dst with
      | some n => n.prev
      | none => none) = some src
    rw [lookupL_append_of_some _ _ dst (dstDefault src dst) hg1look]
    rfl

/-! ## The relaxation update strictly decreases a non-negative label -/

theorem node_costed_modify_self (g : Graph) (k : String) (f : Node → Node) (n : Node)
    (h : g.lookupNode k = some n) : (g.modifyNode k f).node_costed k = (f n).costed := by
  rw [Graph.node_costed, Graph.modifyNode, Graph.lookupNode, lookupL_modifyL_self]
  rw [Graph.lookupNode] at h
  rw [h]
  rfl

/-- Claim C6, amended: during a run of `shortest_path`, every update (they all go
through the relaxation step `relaxEdge`) that changes a node's `costed` label while
that label is non-negative strictly decreases it: the update is guarded by
`new_cost < next.costed` whenever `next.costed` is not the `-1` sentinel.  (As stated
the claim fails: with negative edge costs the label can drop back to the `-1`
sentinel, after which a further update may increase it — see the counterexample.) -/
theorem relaxEdge_decreases (g : Graph) (dn : String) (e : Edge)
    (h0 : 0 ≤ g.node_costed e.next)
    (hchange : (g.relaxEdge dn e).node_costed e.next ≠ g.node_costed e.next) :
    (g.relaxEdge dn e).node_costed e.next < g.node_costed e.next := by
  by_cases h1 : g.is_done_node e.next = true
  · rw [Graph.relaxEdge, if_pos h1] at hchange
    exact absurd rfl hchange
  · by_cases h2 : g.node_costed e.next = -1 ∨
        g.node_costed dn + e.cost < g.node_costed e.next
    · rcases h2 with h3 | h3
      · rw [h3] at h0
        exact absurd h0 (by decide)
      · rw [Graph.relaxEdge, if_neg h1, if_pos (Or.inr h3)]
        cases hne : g.lookupNode e.next with
        | none =>
          rw [Graph.node_costed, hne] at h0
          exact absurd h0 (by decide)
        | some nn =>
          rw [Graph.update_node_edge, node_costed_modify_self g e.next _ nn hne]
          exact h3
    · rw [Graph.relaxEdge, if_neg h1, if_neg h2] at hchange
      exact absurd rfl hchange

/-! ## Rendering -/

/-- What `get_node_path_string` keeps of a way element, per the spec. -/
def nodeMark : WayKind → Option String
  | WayKind.Node node_name => some node_name
  | _ => none

/-- What `get_node_edge_path_string` keeps of a way element, per the spec:
node names, and edge labels wrapped in double parentheses. -/
def nodeEdgeMark : WayKind → Option String
  | WayKind.Node node_name => some node_name
  | WayKind.Edge edge_name _ => some ("((" ++ edge_name ++ "))")
  | WayKind.None => none

/-- The spec's description of `node_path_string`. -/
def nodePathSpec (sp : ShortestPath) (connector : String) : String :=
  String.intercalate connector (sp.passages.filterMap nodeMark)

/-- The spec's description of `node_edge_path_string`. -/
def nodeEdgePathSpec (sp : ShortestPath) (connector : String) : String :=
  String.intercalate connector (sp.passages.filterMap nodeEdgeMark)

theorem foldl_collect_nodes (l : List WayKind) (acc : List String) :
    l.foldl (fun acc s =>
      match s with
      | WayKind.Node node_name => acc ++ [node_name]
      | _ => acc) acc = acc ++ l.filterMap nodeMark := by
  induction l generalizing acc with
  | nil => simp
  | cons w t ih =>
    cases w <;> simp [nodeMark, ih]

theorem foldl_collect_node_edges (l : List WayKind) (acc : List String) :
    l.foldl (fun acc s =>
      let acc1 :=
        match s with
        | WayKind.Edge edge_name _ => acc ++ ["((" ++ edge_name ++ "))"]
        | _ => acc
      match s with
      | WayKind.Node node_name => acc1 ++ [node_name]
      | _ => acc1) acc = acc ++ l.filterMap nodeEdgeMark := by
  induction l generalizing acc with
  | nil => simp
  | cons w t ih =>
    cases w <;> simp [nodeEdgeMark, ih]

/-! ## Assembled run theorems -/

theorem settle_self (g0 : Graph) (start : String)
    (hmid : InvMid start start g0) (hsel : selectMin g0 = some start) :
    ∃ g2, spFinish (settleLoop (g0.nodes.length + 1) g0 start) start start =
      some (⟨[WayKind.Node start], 0⟩, g2) := by
  have hedges : ∀ e ∈ g0.node_edges start, 0 ≤ e.cost := by
    intro e he
    rw [Graph.node_edges] at he
    obtain ⟨nd, hnd, h1, h2⟩ := hmid.dnOk
    rw [hnd] at he
    exact hmid.nonneg (start, nd) (lookupL_mem g0.nodes start nd hnd) e he
  have hmid1 : InvMid start start (g0.relaxEdges start (g0.node_edges start)) :=
    relaxEdges_invMid start start g0 _ hmid hedges
  obtain ⟨ns1, hns1, hns1c, hns1p⟩ := hmid1.startOk
  have hloop : settleLoop (g0.nodes.length + 1) g0 start =
      (g0.relaxEdges start (g0.node_edges start)).update_node_done start true := by
    simp [settleLoop, hsel]
  have hns2 : ((g0.relaxEdges start (g0.node_edges start)).update_node_done start
      true).lookupNode start = some { ns1 with done := true } := by
    rw [Graph.update_node_done, Graph.modifyNode, Graph.lookupNode, lookupL_modifyL_self]
    rw [Graph.lookupNode] at hns1
    rw [hns1]
    rfl
  have hname : ns1.name = start := by
    have hmem := lookupL_mem (g0.relaxEdges start (g0.node_edges start)).nodes start ns1 hns1
    exact hmid1.names (start, ns1) hmem
  have hbp : buildPath
      (((g0.relaxEdges start (g0.node_edges start)).update_node_done start true).nodes.length + 1)
      ((g0.relaxEdges start (g0.node_edges start)).update_node_done start true) start start =
      some [WayKind.Node start] := by
    simp [buildPath, hns2, pathSeg, hns1p, hname]
  refine ⟨(g0.relaxEdges start (g0.node_edges start)).update_node_done start true, ?_⟩
  rw [hloop]
  simp [spFinish, hbp, hns2, hns1c]

/-- Claim C5, amended: for every freshly built well-formed graph with non-negative
edge costs and every node key `start` present in it, `shortest_path(start, start)`
returns cost `0` and a path consisting of exactly the one node-visit element for
`start`.  (As stated, without the non-negative-cost restriction, the claim fails on a
negative self-loop at `start` — see the counterexample.) -/
theorem shortest_path_self (g : Graph) (start : String)
    (hwf : g.Wf) (hfresh : g.FreshState) (hnn : g.NonnegCosts)
    (hstart : g.containsKey start = true) :
    ∃ g2, g.shortest_path start start = some (⟨[WayKind.Node start], 0⟩, g2) := by
  have hmid : InvMid start start (g.modifyNode start (fun n => { n with costed := 0 })) :=
    invMid_init g start hwf hfresh hnn hstart
  have hsel : selectMin (g.modifyNode start (fun n => { n with costed := 0 })) =
      some start := by
    rw [selectMin]
    apply selectAux_fresh
    · obtain ⟨ns, hns, hns0, _⟩ := hmid.startOk
      rw [Graph.node_costed, hns]
      exact hns0
    · intro p hp hps
      obtain ⟨q, hq, hval⟩ := mem_modifyL g.nodes start _ p hp
      by_cases hq1 : q.1 = start
      · constructor
        · rw [hval, if_pos hq1]
          show q.2.done = false
          exact (hfresh q hq).2.1
        · rw [hval, if_pos hq1]
      · have hpq : p = q := by rw [hval, if_neg hq1]
        rw [hpq] at hps
        exact absurd hps hq1
    · intro p hp hps
      obtain ⟨q, hq, hval⟩ := mem_modifyL g.nodes start _ p hp
      by_cases hq1 : q.1 = start
      · have : p.1 = start := by rw [hval, if_pos hq1]; exact hq1
        exact absurd this hps
      · have hpq : p = q := by rw [hval, if_neg hq1]
        rw [hpq]
        exact (hfresh q hq).1
    · exact Or.inl rfl
    · left
      obtain ⟨nd, hnd, _, _⟩ := hmid.dnOk
      exact ⟨(start, nd), lookupL_mem _ _ _ hnd, rfl⟩
  obtain ⟨g2, hg2⟩ :=
    settle_self (g.modifyNode start (fun n => { n with costed := 0 })) start hmid hsel
  refine ⟨g2, ?_⟩
  rw [Graph.shortest_path, if_pos hstart]
  exact hg2

/-- Claim C2, amended: for every freshly built well-formed graph with non-negative
edge costs, whenever `shortest_path` returns normally with a non-negative
`total_cost`, the `total_cost` equals the sum of the `cost` values of the
edge-traversal elements of the returned passage list.  (As stated, for every graph
without qualification, the claim fails: an unknown start yields `total_cost = -1`
with an empty passage list whose sum is `0` — see the counterexample.) -/
theorem shortest_path_cost_eq_sum (g : Graph) (start goal : String) (sp : ShortestPath)
    (g2 : Graph) (hwf : g.Wf) (hfresh : g.FreshState) (hnn : g.NonnegCosts)
    (hrun : g.shortest_path start goal = some (sp, g2)) (hpos : 0 ≤ sp.total_cost) :
    sumEdges sp.passages = sp.total_cost := by
  by_cases hstart : g.containsKey start = true
  · have hrun' : spFinish (settleLoop
        ((g.modifyNode start (fun n => { n with costed := 0 })).nodes.length + 1)
        (g.modifyNode start (fun n => { n with costed := 0 })) goal) start goal =
        some (sp, g2) := by
      rw [Graph.shortest_path, if_pos hstart] at hrun
      exact hrun
    exact spFinish_sum _ start goal sp g2
      (settleLoop_inv start goal _ _ (inv_init g start hwf hfresh hnn hstart)) hrun' hpos
  · rw [Graph.shortest_path, if_neg hstart] at hrun
    have h1 := Option.some.inj hrun
    have hsp : (⟨[], -1⟩ : ShortestPath) = sp := congrArg Prod.fst h1
    rw [← hsp] at hpos
    exact absurd hpos (by decide)

/-! ## Claims -/

/-- Claim C1: for the example graph with nodes {s,a,b,c,d,z} and edges s→a(2), s→b(5),
a→b(2), a→c(5), b→c(4), b→d(2), c→z(7), d→c(5), d→z(2), `shortest_path("s","z")`
returns a result whose `cost()` is 8, whose node path rendered with connector `->` is
`s->a->b->d->z`, and whose node-edge rendering alternates node names with the labels of
the edges actually traversed. -/
theorem example_graph_shortest_path :
    ((exampleGraph.shortest_path "s" "z").map
      (fun r => (r.1.cost, r.1.get_node_path_string "->", r.1.get_node_edge_path_string "->"))) =
    some (8, "s->a->b->d->z",
      "s->((edge1))->a->((edge3))->b->((edge6))->d->((edge9))->z") := by
  decide

/-- Claim C2, counterexample to the claim as stated: when `start` is not a key, the
code returns a `ShortestPath` whose `total_cost` is `-1` while its passage list is
empty, so the sum of the edge costs in the passages is `0 ≠ -1`. -/
theorem unknown_start_total_cost_differs_from_sum :
    ((new_graph.shortest_path "s" "z").map
      (fun r => (sumEdges r.1.passages, r.1.total_cost))) = some (0, -1) ∧
    ((0 : Int) ≠ -1) :=
  ⟨by decide, by decide⟩

/-- Claim C2 witness: the amended claim applied to the example graph, whose run
returns total cost `8`. -/
theorem C2_witness :
    ∃ sp g2, exampleGraph.shortest_path "s" "z" = some (sp, g2) ∧
      sumEdges sp.passages = sp.total_cost := by
  cases hEq : exampleGraph.shortest_path "s" "z" with
  | none => exact absurd hEq (by decide)
  | some r =>
    obtain ⟨sp, g2⟩ := r
    have h8 : (exampleGraph.shortest_path "s" "z").map (fun r => r.1.total_cost) =
        some 8 := by decide
    rw [hEq] at h8
    have h8' : sp.total_cost = 8 := Option.some.inj h8
    refine ⟨sp, g2, rfl,
      shortest_path_cost_eq_sum exampleGraph "s" "z" sp g2 ?_ ?_ ?_ hEq ?_⟩
    · decide
    · decide
    · decide
    · rw [h8']; decide

/-- Claim C3: the failing input.  The goal `c` is a key of the map (created as the
destination of `b→c`) but unreachable from `s`; the reconstruction loop follows the
placeholder `prev` chain to `b`, whose `prev` is `None`, and the source's
`self.node_prev(..).unwrap()` (line 192) panics instead of returning an empty path
with cost `-1` as the spec-prescribed fixed behaviour requires.  The panic is
modelled by `none`. -/
theorem unreachable_goal_panics :
    (((new_graph.add "s" "a" 1 "edge1").add "b" "c" 1 "edge2").shortest_path "s" "c") =
      none := by
  decide

/-- Claim C4: for every graph and every goal, if `start` is not a key of the node
map, `shortest_path` returns immediately with an empty passage list and
`total_cost = -1`, and the graph is returned unchanged (not mutated). -/
theorem shortest_path_unknown_start (g : Graph) (start goal : String)
    (h : g.containsKey start = false) :
    g.shortest_path start goal = some (⟨[], -1⟩, g) := by
  have h' : ¬(g.containsKey start = true) := by rw [h]; decide
  rw [Graph.shortest_path, if_neg h']

/-- Claim C4 witness. -/
theorem shortest_path_unknown_start_witness :
    new_graph.shortest_path "s" "z" = some (⟨[], -1⟩, new_graph) :=
  shortest_path_unknown_start new_graph "s" "z" (by decide)

/-- Claim C5, counterexample to the claim as stated: the freshly built graph with the
single negative self-loop `s→s(-1)` has `s` as a node key, yet
`shortest_path("s","s")` returns cost `-1` (not `0`) and a two-element passage list
(not a single node visit): the negative self-loop relaxes `s` itself below `0`
before `s` is marked done. -/
theorem self_query_negative_loop :
    (((new_graph.add "s" "s" (-1) "loop").shortest_path "s" "s").map
      (fun r => (r.1.total_cost, r.1.passages.length))) = some (-1, 2) ∧
    ¬((-1 : Int) = 0 ∧ (2 : Nat) = 1) :=
  ⟨by decide, by decide⟩

/-- Claim C5 witness: the amended claim applied to the example graph. -/
theorem shortest_path_self_witness :
    ∃ g2, exampleGraph.shortest_path "s" "s" =
      some (⟨[WayKind.Node "s"], 0⟩, g2) :=
  shortest_path_self exampleGraph "s" (by decide) (by decide) (by decide) (by decide)

/-- Claim C6, counterexample to the claim as stated: with parallel edges
s→v of costs 3, -1, 7 (in insertion order), the run of `shortest_path` from `s`
settles `s` and relaxes its edges in order; `v.costed` is first set to the
non-negative value `3`, then updated to `-1`, and then updated to `7`: the last
update is a subsequent update that increases the field instead of strictly
decreasing it (the `-1` sentinel re-enables the unconditional branch of the
guard).  The first two conjuncts show these relaxation steps are exactly the
steps the run performs. -/
theorem costed_can_increase_after_set :
    selectMin ((((new_graph.add "s" "v" 3 "edge1").add "s" "v" (-1) "edge2").add
        "s" "v" 7 "edge3").modifyNode "s" (fun n => { n with costed := 0 })) = some "s" ∧
    ((((new_graph.add "s" "v" 3 "edge1").add "s" "v" (-1) "edge2").add
        "s" "v" 7 "edge3").modifyNode "s" (fun n => { n with costed := 0 })).node_edges "s" =
      [⟨"v", "edge1", 3⟩, ⟨"v", "edge2", -1⟩, ⟨"v", "edge3", 7⟩] ∧
    (((((new_graph.add "s" "v" 3 "edge1").add "s" "v" (-1) "edge2").add
        "s" "v" 7 "edge3").modifyNode "s" (fun n => { n with costed := 0 })).relaxEdge
        "s" ⟨"v", "edge1", 3⟩).node_costed "v" = 3 ∧
    ((((((new_graph.add "s" "v" 3 "edge1").add "s" "v" (-1) "edge2").add
        "s" "v" 7 "edge3").modifyNode "s" (fun n => { n with costed := 0 })).relaxEdge
        "s" ⟨"v", "edge1", 3⟩).relaxEdge "s" ⟨"v", "edge2", -1⟩).node_costed "v" = -1 ∧
    (((((((new_graph.add "s" "v" 3 "edge1").add "s" "v" (-1) "edge2").add
        "s" "v" 7 "edge3").modifyNode "s" (fun n => { n with costed := 0 })).relaxEdge
        "s" ⟨"v", "edge1", 3⟩).relaxEdge "s" ⟨"v", "edge2", -1⟩).relaxEdge
        "s" ⟨"v", "edge3", 7⟩).node_costed "v" = 7 ∧
    ¬((7 : Int) < -1) :=
  ⟨by decide, by decide, by decide, by decide, by decide, by decide⟩

/-- Claim C6 witness: the amended claim applied to a state in which `v` has label `5`
and the settled node `s` offers a path of cost `2`. -/
theorem relaxEdge_decreases_witness :
    0 ≤ (Graph.mk [("s", ⟨"s", false, [⟨"v", "ew", 2⟩], 0, none, none⟩),
        ("v", ⟨"v", false, [], 5, none, none⟩)]).node_costed "v" ∧
    ((Graph.mk [("s", ⟨"s", false, [⟨"v", "ew", 2⟩], 0, none, none⟩),
        ("v", ⟨"v", false, [], 5, none, none⟩)]).relaxEdge "s"
        ⟨"v", "ew", 2⟩).node_costed "v" ≠
      (Graph.mk [("s", ⟨"s", false, [⟨"v", "ew", 2⟩], 0, none, none⟩),
        ("v", ⟨"v", false, [], 5, none, none⟩)]).node_costed "v" ∧
    ((Graph.mk [("s", ⟨"s", false, [⟨"v", "ew", 2⟩], 0, none, none⟩),
        ("v", ⟨"v", false, [], 5, none, none⟩)]).relaxEdge "s"
        ⟨"v", "ew", 2⟩).node_costed "v" <
      (Graph.mk [("s", ⟨"s", false, [⟨"v", "ew", 2⟩], 0, none, none⟩),
        ("v", ⟨"v", false, [], 5, none, none⟩)]).node_costed "v" :=
  ⟨by decide, by decide,
    relaxEdge_decreases
      (Graph.mk [("s", ⟨"s", false, [⟨"v", "ew", 2⟩], 0, none, none⟩),
        ("v", ⟨"v", false, [], 5, none, none⟩)]) "s" ⟨"v", "ew", 2⟩
      (by decide) (by decide)⟩

/-- Claim C7, counterexample to the claim as stated: after the single call
`add("s","a",2,"edge1")` and before any `shortest_path` run, the never-visited node
`a` carries the placeholder `prev = Some "s")` (lines 46-53), not `None`. -/
theorem unvisited_dst_prev_not_none :
    (new_graph.add "s" "a" 2 "edge1").node_prev "a" = some "s" ∧
    (new_graph.add "s" "a" 2 "edge1").node_prev "a" ≠ none :=
  ⟨by decide, by decide⟩

/-- Claim C7, amended: after `add`, a node freshly created as a source (and distinct
from the destination) has `prev = None`, while a node freshly created as a destination
carries the placeholder `prev = Some src`. -/
theorem add_prev_links (g : Graph) (src dst : String) (c : Int) (nm : String) :
    (g.containsKey src = false → src ≠ dst → (g.add src dst c nm).node_prev src = none) ∧
    (g.containsKey dst = false → (g.add src dst c nm).node_prev dst = some src) :=
  ⟨fun h1 h2 => add_prev_src g src dst c nm h1 h2,
   fun h1 => add_prev_dst g src dst c nm h1⟩

/-- Claim C7 witness. -/
theorem add_prev_links_witness :
    (new_graph.add "s" "a" 2 "edge1").node_prev "s" = none ∧
    (new_graph.add "s" "a" 2 "edge1").node_prev "a" = some "s" :=
  ⟨(add_prev_links new_graph "s" "a" 2 "edge1").1 (by decide) (by decide),
   (add_prev_links new_graph "s" "a" 2 "edge1").2 (by decide)⟩

/-- Claim C8: calling `add` twice with the same `(src, dst)` pair appends a second,
independent edge: the source's edge list extends by both edges in insertion order;
the relaxation fold consults each list element separately and in order; and on the
concrete graph with parallel edges s→a(5, "x") and s→a(2, "y") the cheaper second
edge wins, with cost 2 and edge label `y` in the rendering. -/
theorem add_parallel_edges (g : Graph) (src dst : String) (c1 c2 : Int) (n1 n2 : String) :
    ((g.add src dst c1 n1).add src dst c2 n2).node_edges src =
      g.node_edges src ++ [⟨dst, n1, c1⟩, ⟨dst, n2, c2⟩] ∧
    (∀ (h : Graph) (dn : String) (es : List Edge),
      h.relaxEdges dn (es ++ [⟨dst, n1, c1⟩, ⟨dst, n2, c2⟩]) =
        ((h.relaxEdges dn es).relaxEdge dn ⟨dst, n1, c1⟩).relaxEdge dn ⟨dst, n2, c2⟩) ∧
    ((((new_graph.add "s" "a" 5 "x").add "s" "a" 2 "y").shortest_path "s" "a").map
      (fun r => (r.1.cost, r.1.get_node_edge_path_string "->"))) = some (2, "s->((y))->a") := by
  refine ⟨?_, ?_, by decide⟩
  · rw [node_edges_add, node_edges_add, List.append_assoc]
    rfl
  · intro h dn es
    exact relaxEdges_append_two h dn es ⟨dst, n1, c1⟩ ⟨dst, n2, c2⟩

/-- Claim C9: for every `ShortestPath` value and connector, `node_path_string` is the
join with the connector of exactly the node-visit elements' names in traversal order,
and `node_edge_path_string` is the join with the connector of node names alternating
with edge labels wrapped in double parentheses `((edge_name))` (the spec-side
descriptions are `nodePathSpec` and `nodeEdgePathSpec`). -/
theorem render_strings_spec (sp : ShortestPath) (connector : String) :
    sp.get_node_path_string connector = nodePathSpec sp connector ∧
    sp.get_node_edge_path_string connector = nodeEdgePathSpec sp connector := by
  constructor
  · show String.intercalate connector
      (sp.passages.foldl (fun acc s =>
        match s with
        | WayKind.Node node_name => acc ++ [node_name]
        | _ => acc) []) = nodePathSpec sp connector
    rw [foldl_collect_nodes, nodePathSpec, List.nil_append]
  · show String.intercalate connector
      (sp.passages.foldl (fun acc s =>
        let acc1 :=
          match s with
          | WayKind.Edge edge_name _ => acc ++ ["((" ++ edge_name ++ "))"]
          | _ => acc
        match s with
        | WayKind.Node node_name => acc1 ++ [node_name]
        | _ => acc1) []) = nodeEdgePathSpec sp connector
    rw [foldl_collect_node_edges, nodeEdgePathSpec, List.nil_append]

/-- Claim C10: when `start` is a known node key but `goal` is not a key of the node
map at all, `shortest_path` does not return a sentinel result: the final
`self.nodes.get(goal).unwrap()` (line 199) fails, i.e. the function panics
(modelled by `none`) instead of returning cost `-1`. -/
theorem shortest_path_goal_not_a_key (g : Graph) (start goal : String)
    (hstart : g.containsKey start = true) (hgoal : g.containsKey goal = false) :
    g.shortest_path start goal = none := by
  rw [Graph.shortest_path, if_pos hstart]
  have hnone : (settleLoop
      ((g.modifyNode start (fun n => { n with costed := 0 })).nodes.length + 1)
      (g.modifyNode start (fun n => { n with costed := 0 })) goal).lookupNode goal = none := by
    apply settleLoop_lookup_none
    rw [Graph.modifyNode, Graph.lookupNode]
    exact (lookupL_modifyL_eq_none g.nodes start goal _).mpr
      (containsKey_false_lookup_none g goal hgoal)
  exact spFinish_goal_missing _ start goal hnone

/-- Claim C10 witness. -/
theorem shortest_path_goal_not_a_key_witness :
    exampleGraph.shortest_path "s" "nope" = none :=
  shortest_path_goal_not_a_key exampleGraph "s" "nope" (by decide) (by decide)

end Shortestpath
